import Mathlib

/-!
A shallow embedding of the polling smart contract in src/src/contract.rs:
the data model (Poll, Ballot, the stored maps), the two execute entry
points (execute_create_poll, execute_vote) and the three query entry
points (query_all_polls, query_poll, query_vote), together with theorems
about tally bookkeeping, error behaviour and reachable-state invariants.

Modelling conventions:
- Principals (Addr) and poll ids are strings; address validation is an
  external collaborator and validated principals are taken as given.
- Storage maps are association lists.  POLLS is kept sorted by key,
  because Map.range iterates keys in ascending byte order; BALLOTS is an
  unordered association list, since only point reads and writes hit it.
- u64 tallies are Nat with the 2^64 bound checked at each arithmetic
  step: the contract is compiled with overflow checks, so a decrement of
  a zero tally or an increment past 2^64 - 1 aborts the instance.
- A call that returns Err, and a call that aborts, both roll the whole
  transaction back: applyOp keeps the pre-state in either case, which is
  the host-level transactional semantics the contract runs under.
-/

namespace CwPolls

/-- The contract error enum, restricted to the variants the modelled
entry points can return. -/
inductive ContractError where
  | unauthorized
  | tooManyOptions
  | pollNotFound
deriving DecidableEq

/-- Outcome of a failed execute call: a typed contract error, or an
abort of the instance (Option.unwrap on None at the old-vote position
lookup, or a checked u64 over- or underflow). -/
inductive VmError where
  | contract (e : ContractError)
  | unwrapNone
  | arithCheck
deriving DecidableEq

/-- Ballot record: the option label the voter currently selects. -/
structure Ballot where
  option : String
deriving DecidableEq

/-- Poll record: creator, question, and the ordered list of
(option label, tally) pairs. -/
structure Poll where
  creator : String
  question : String
  options : List (String × Nat)
deriving DecidableEq

/-- The u64 modulus: tallies live in [0, U64). -/
def U64 : Nat := 2 ^ 64

/-- Contract storage: the POLLS map keyed by poll id, and the BALLOTS
map keyed by (voter, poll id).  Config is immutable after init and no
modelled operation reads it, so it is omitted. -/
structure State where
  polls : List (String × Poll)
  ballots : List ((String × String) × Ballot)
deriving DecidableEq

/-- Storage right after instantiation: no polls, no ballots. -/
def emptyState : State := { polls := [], ballots := [] }

/-- Point read on the POLLS map (Map.may_load). -/
def pollsGet (k : String) : List (String × Poll) → Option Poll
  | [] => none
  | (k', v) :: rest => if k' = k then some v else pollsGet k rest

/-- Lexicographic strict order on character lists by codepoint, which
for UTF-8 encoded keys coincides with the byte order the storage
backend iterates in. -/
def charsLtb : List Char → List Char → Bool
  | [], [] => false
  | [], _ :: _ => true
  | _ :: _, [] => false
  | a :: as, b :: bs =>
      if a.toNat < b.toNat then true
      else if b.toNat < a.toNat then false
      else charsLtb as bs

/-- Storage key order on poll ids. -/
def keyLtb (a b : String) : Bool := charsLtb a.data b.data

/-- Write on the POLLS map (Map.save): replaces the binding if the key
exists, otherwise inserts at the sorted position, keeping the list in
ascending key order as the storage backend does. -/
def pollsInsert (k : String) (v : Poll) : List (String × Poll) → List (String × Poll)
  | [] => [(k, v)]
  | (k', v') :: rest =>
      if k' = k then (k, v) :: rest
      else if keyLtb k k' then (k, v) :: (k', v') :: rest
      else (k', v') :: pollsInsert k v rest

/-- Point read on the BALLOTS map (Map.may_load). -/
def ballotsGet (k : String × String) : List ((String × String) × Ballot) → Option Ballot
  | [] => none
  | (k', v) :: rest => if k' = k then some v else ballotsGet k rest

/-- Write on the BALLOTS map: replaces the binding if present, else
appends. -/
def ballotsInsert (k : String × String) (v : Ballot) :
    List ((String × String) × Ballot) → List ((String × String) × Ballot)
  | [] => [(k, v)]
  | (k', v') :: rest => if k' = k then (k, v) :: rest else (k', v') :: ballotsInsert k v rest

/-- Iterator.position over the options list: the first index whose
label equals lbl. -/
def positionOf (lbl : String) : List (String × Nat) → Option Nat
  | [] => none
  | (l, _) :: rest => if l = lbl then some 0 else (positionOf lbl rest).map (· + 1)

/-- options[pos].1 -= 1 with the checked-u64 semantics: none when the
tally is zero (underflow abort) or the index is out of range. -/
def decAt : List (String × Nat) → Nat → Option (List (String × Nat))
  | [], _ => none
  | (l, t) :: rest, 0 => if t = 0 then none else some ((l, t - 1) :: rest)
  | e :: rest, n + 1 => (decAt rest n).map (e :: ·)

/-- options[pos].1 += 1 with the checked-u64 semantics: none when the
tally would reach 2^64 (overflow abort) or the index is out of range. -/
def incAt : List (String × Nat) → Nat → Option (List (String × Nat))
  | [], _ => none
  | (l, t) :: rest, 0 => if t + 1 < U64 then some ((l, t + 1) :: rest) else none
  | e :: rest, n + 1 => (incAt rest n).map (e :: ·)

/-- execute_create_poll (contract.rs lines 51-77): reject more than 10
options, otherwise store every supplied label with tally 0 in input
order, overwriting any poll already at poll_id. -/
def execute_create_poll (s : State) (sender poll_id question : String)
    (options : List String) : Except VmError State :=
  if options.length > 10 then
    .error (.contract .tooManyOptions)
  else
    let poll : Poll :=
      { creator := sender, question := question,
        options := options.map (fun o => (o, 0)) }
    .ok { s with polls := pollsInsert poll_id poll s.polls }

/-- The closure passed to BALLOTS.update (contract.rs lines 93-113).
It also mutates the in-memory poll: when an old ballot exists, the old
option position is looked up with unwrap (abort when absent) and its
tally is decremented (abort when zero); the result is the updated
options list paired with the new ballot to store. -/
def ballotClosure (poll : Poll) (vote : String) :
    Option Ballot → Except VmError (List (String × Nat) × Ballot)
  | some ballot =>
      match positionOf ballot.option poll.options with
      | some pos =>
          match decAt poll.options pos with
          | some opts => .ok (opts, { option := vote })
          | none => .error .arithCheck
      | none => .error .unwrapNone
  | none => .ok (poll.options, { option := vote })

/-- execute_vote (contract.rs lines 79-133): load the poll (PollNotFound
when absent), run the BALLOTS.update closure, then look up the new vote
position (Unauthorized when the label is absent), increment its tally
and save the poll.  An error return discards all intermediate writes,
mirroring the host rollback of the failed transaction. -/
def execute_vote (s : State) (sender poll_id vote : String) : Except VmError State :=
  match pollsGet poll_id s.polls with
  | none => .error (.contract .pollNotFound)
  | some poll =>
      match ballotClosure poll vote (ballotsGet (sender, poll_id) s.ballots) with
      | .error e => .error e
      | .ok (opts1, newBallot) =>
          match positionOf vote opts1 with
          | none => .error (.contract .unauthorized)
          | some pos =>
              match incAt opts1 pos with
              | none => .error .arithCheck
              | some opts2 =>
                  .ok { polls := pollsInsert poll_id { poll with options := opts2 } s.polls,
                        ballots := ballotsInsert (sender, poll_id) newBallot s.ballots }

/-- query_all_polls (contract.rs lines 144-151): the stored polls in
ascending key order. -/
def query_all_polls (s : State) : List Poll := s.polls.map Prod.snd

/-- query_poll (contract.rs lines 153-156). -/
def query_poll (s : State) (poll_id : String) : Option Poll := pollsGet poll_id s.polls

/-- query_vote (contract.rs lines 158-163), for an already validated
principal. -/
def query_vote (s : State) (address poll_id : String) : Option Ballot :=
  ballotsGet (address, poll_id) s.ballots

/-- An execute message of the modelled surface. -/
inductive Op where
  | createPoll (sender poll_id question : String) (options : List String)
  | vote (sender poll_id choice : String)

/-- Dispatch one execute message. -/
def runOp (s : State) : Op → Except VmError State
  | .createPoll sn pid q os => execute_create_poll s sn pid q os
  | .vote sn pid c => execute_vote s sn pid c

/-- One host-level transaction: commit the new state on Ok, roll back
to the pre-state on Err or abort. -/
def applyOp (s : State) (op : Op) : State :=
  match runOp s op with
  | .ok s' => s'
  | .error _ => s

/-- Run a sequence of execute messages, each in its own transaction. -/
def applyOps (s : State) : List Op → State
  | [] => s
  | op :: rest => applyOps (applyOp s op) rest

/-- States reachable from fresh storage by some message sequence. -/
def reach (ops : List Op) : State := applyOps emptyState ops

/-- Run a sequence of cast_vote messages (sender, poll id, option). -/
def applyVotes (s : State) : List (String × String × String) → State
  | [] => s
  | (sn, pid, c) :: rest => applyVotes (applyOp s (.vote sn pid c)) rest

/-- Sum of all option tallies of an options list. -/
def sumTallies (opts : List (String × Nat)) : Nat := (opts.map Prod.snd).sum

/-- The ballot entries recorded for poll p. -/
def ballotsFor (p : String) (bs : List ((String × String) × Ballot)) :
    List ((String × String) × Ballot) :=
  bs.filter (fun e => e.1.2 == p)

/-- The tally stored for the first occurrence of a label. -/
def tallyOf (lbl : String) : List (String × Nat) → Option Nat
  | [] => none
  | (l, t) :: rest => if l = lbl then some t else tallyOf lbl rest

/-- The POLLS association list is in strictly ascending key order. -/
def keysSorted (ps : List (String × Poll)) : Prop :=
  ps.Pairwise (fun a b => keyLtb a.1 b.1 = true)

/-- The BALLOTS association list binds each (voter, poll) key once. -/
def ballotKeysNodup (s : State) : Prop := (s.ballots.map Prod.fst).Nodup

/-! ### Order properties of the storage key comparison -/

theorem char_toNat_inj {a b : Char} (h : a.toNat = b.toNat) : a = b := by
  rw [← Char.ofNat_toNat a, h, Char.ofNat_toNat b]

theorem charsLtb_trans {a b c : List Char} (hab : charsLtb a b = true)
    (hbc : charsLtb b c = true) : charsLtb a c = true := by
  induction a generalizing b c with
  | nil =>
    cases b with
    | nil => simp [charsLtb] at hab
    | cons y ys =>
      cases c with
      | nil => simp [charsLtb] at hbc
      | cons z zs => simp [charsLtb]
  | cons x xs ih =>
    cases b with
    | nil => simp [charsLtb] at hab
    | cons y ys =>
      cases c with
      | nil => simp [charsLtb] at hbc
      | cons z zs =>
        simp only [charsLtb] at hab hbc ⊢
        rcases Nat.lt_trichotomy x.toNat y.toNat with h1 | h1 | h1 <;>
          rcases Nat.lt_trichotomy y.toNat z.toNat with h2 | h2 | h2
        · have h3 : x.toNat < z.toNat := Nat.lt_trans h1 h2
          simp [h3]
        · have h3 : x.toNat < z.toNat := h2 ▸ h1
          simp [h3]
        · simp [Nat.lt_asymm h2, h2] at hbc
        · have h3 : x.toNat < z.toNat := h1 ▸ h2
          simp [h3]
        · have h3 : ¬ x.toNat < z.toNat := by omega
          have h4 : ¬ z.toNat < x.toNat := by omega
          simp only [h3, if_false, h4]
          have h5 : ¬ x.toNat < y.toNat := by omega
          have h6 : ¬ y.toNat < x.toNat := by omega
          have h7 : ¬ y.toNat < z.toNat := by omega
          have h8 : ¬ z.toNat < y.toNat := by omega
          simp only [h5, h6, if_false] at hab
          simp only [h7, h8, if_false] at hbc
          simpa using ih hab hbc
        · simp [Nat.lt_asymm h2, h2] at hbc
        · simp [Nat.lt_asymm h1, h1] at hab
        · simp [Nat.lt_asymm h1, h1] at hab
        · simp [Nat.lt_asymm h1, h1] at hab

theorem charsLtb_trichotomy (a b : List Char) :
    charsLtb a b = true ∨ a = b ∨ charsLtb b a = true := by
  induction a generalizing b with
  | nil =>
    cases b with
    | nil => right; left; rfl
    | cons y ys => left; simp [charsLtb]
  | cons x xs ih =>
    cases b with
    | nil => right; right; simp [charsLtb]
    | cons y ys =>
      rcases Nat.lt_trichotomy x.toNat y.toNat with h | h | h
      · left; simp [charsLtb, h]
      · have hxy : x = y := char_toNat_inj h
        subst hxy
        rcases ih ys with h2 | h2 | h2
        · left; simp [charsLtb, h2]
        · right; left; rw [h2]
        · right; right; simp [charsLtb, h2]
      · right; right; simp [charsLtb, h, Nat.lt_asymm h]

theorem keyLtb_trans {a b c : String} (h1 : keyLtb a b = true)
    (h2 : keyLtb b c = true) : keyLtb a c = true :=
  charsLtb_trans h1 h2

theorem keyLtb_resolve (a b : String) :
    keyLtb a b = true ∨ a = b ∨ keyLtb b a = true := by
  rcases charsLtb_trichotomy a.data b.data with h | h | h
  · exact Or.inl h
  · exact Or.inr (Or.inl (String.toList_inj.mp h))
  · exact Or.inr (Or.inr h)

/-! ### Association list lemmas for the two storage maps -/

theorem pollsGet_insert_self (k : String) (v : Poll) (l : List (String × Poll)) :
    pollsGet k (pollsInsert k v l) = some v := by
  induction l with
  | nil => simp [pollsInsert, pollsGet]
  | cons e rest ih =>
    obtain ⟨k', v'⟩ := e
    by_cases h : k' = k
    · subst h; simp [pollsInsert, pollsGet]
    · simp only [pollsInsert, if_neg h]
      by_cases h2 : keyLtb k k' = true
      · simp [h2, pollsGet]
      · simp [h2, pollsGet, h, ih]

theorem pollsGet_insert_ne {k q : String} (h : q ≠ k) (v : Poll)
    (l : List (String × Poll)) :
    pollsGet q (pollsInsert k v l) = pollsGet q l := by
  induction l with
  | nil => simp [pollsInsert, pollsGet, Ne.symm h]
  | cons e rest ih =>
    obtain ⟨k', v'⟩ := e
    by_cases h1 : k' = k
    · subst h1; simp [pollsInsert, pollsGet, Ne.symm h]
    · simp only [pollsInsert, if_neg h1]
      by_cases h2 : keyLtb k k' = true
      · simp [h2, pollsGet, Ne.symm h]
      · simp [h2, pollsGet, ih]

theorem ballotsGet_insert_self (k : String × String) (v : Ballot)
    (bs : List ((String × String) × Ballot)) :
    ballotsGet k (ballotsInsert k v bs) = some v := by
  induction bs with
  | nil => simp [ballotsInsert, ballotsGet]
  | cons e rest ih =>
    obtain ⟨k', v'⟩ := e
    by_cases h : k' = k
    · subst h; simp [ballotsInsert, ballotsGet]
    · simp [ballotsInsert, h, ballotsGet, ih]

theorem ballotsGet_insert_ne {k q : String × String} (h : q ≠ k) (v : Ballot)
    (bs : List ((String × String) × Ballot)) :
    ballotsGet q (ballotsInsert k v bs) = ballotsGet q bs := by
  induction bs with
  | nil => simp [ballotsInsert, ballotsGet, Ne.symm h]
  | cons e rest ih =>
    obtain ⟨k', v'⟩ := e
    by_cases h1 : k' = k
    · subst h1; simp [ballotsInsert, ballotsGet, Ne.symm h]
    · simp [ballotsInsert, h1, ballotsGet, ih]

theorem ballotsInsert_of_get_none {k : String × String}
    {bs : List ((String × String) × Ballot)} (h : ballotsGet k bs = none)
    (v : Ballot) : ballotsInsert k v bs = bs ++ [(k, v)] := by
  induction bs with
  | nil => simp [ballotsInsert]
  | cons e rest ih =>
    obtain ⟨k', v'⟩ := e
    by_cases h1 : k' = k
    · simp [ballotsGet, h1] at h
    · simp only [ballotsGet, if_neg h1] at h
      simp [ballotsInsert, h1, ih h]

theorem ballotsInsert_map_fst_of_get_some {k : String × String} {b0 : Ballot}
    {bs : List ((String × String) × Ballot)} (h : ballotsGet k bs = some b0)
    (v : Ballot) : (ballotsInsert k v bs).map Prod.fst = bs.map Prod.fst := by
  induction bs with
  | nil => simp [ballotsGet] at h
  | cons e rest ih =>
    obtain ⟨k', v'⟩ := e
    by_cases h1 : k' = k
    · subst h1; simp [ballotsInsert]
    · simp only [ballotsGet, if_neg h1] at h
      simp [ballotsInsert, h1, ih h]

theorem ballotsGet_eq_none_of_not_mem {k : String × String}
    {bs : List ((String × String) × Ballot)} (h : k ∉ bs.map Prod.fst) :
    ballotsGet k bs = none := by
  induction bs with
  | nil => rfl
  | cons e rest ih =>
    obtain ⟨k', v'⟩ := e
    simp only [List.map_cons, List.mem_cons, not_or] at h
    have h1 : ¬ k' = k := fun hk => h.1 hk.symm
    simp [ballotsGet, h1, ih h.2]

theorem not_mem_of_ballotsGet_eq_none {k : String × String}
    {bs : List ((String × String) × Ballot)} (h : ballotsGet k bs = none) :
    k ∉ bs.map Prod.fst := by
  induction bs with
  | nil => simp
  | cons e rest ih =>
    obtain ⟨k', v'⟩ := e
    by_cases h1 : k' = k
    · simp [ballotsGet, h1] at h
    · simp only [ballotsGet, if_neg h1] at h
      simp only [List.map_cons, List.mem_cons, not_or]
      exact ⟨fun hk => h1 hk.symm, ih h⟩

theorem mem_pollsInsert {x : String × Poll} {k : String} {v : Poll}
    {l : List (String × Poll)} (h : x ∈ pollsInsert k v l) :
    x = (k, v) ∨ x ∈ l := by
  induction l with
  | nil => simpa [pollsInsert] using h
  | cons e rest ih =>
    obtain ⟨k', v'⟩ := e
    by_cases h1 : k' = k
    · simp only [pollsInsert, if_pos h1, List.mem_cons] at h
      rcases h with h | h
      · exact Or.inl h
      · exact Or.inr (List.mem_cons_of_mem _ h)
    · simp only [pollsInsert, if_neg h1] at h
      by_cases h2 : keyLtb k k' = true
      · simp only [if_pos h2, List.mem_cons] at h
        rcases h with h | h | h
        · exact Or.inl h
        · exact Or.inr (h ▸ List.mem_cons_self _ _)
        · exact Or.inr (List.mem_cons_of_mem _ h)
      · simp only [if_neg h2, List.mem_cons] at h
        rcases h with h | h
        · exact Or.inr (h ▸ List.mem_cons_self _ _)
        · rcases ih h with h3 | h3
          · exact Or.inl h3
          · exact Or.inr (List.mem_cons_of_mem _ h3)

theorem keysSorted_insert {l : List (String × Poll)} (hs : keysSorted l)
    (k : String) (v : Poll) : keysSorted (pollsInsert k v l) := by
  induction l with
  | nil => simp [pollsInsert, keysSorted]
  | cons e rest ih =>
    obtain ⟨k', v'⟩ := e
    rw [keysSorted, List.pairwise_cons] at hs
    obtain ⟨hhead, hrest⟩ := hs
    by_cases h1 : k' = k
    · simp only [pollsInsert, if_pos h1]
      rw [keysSorted, List.pairwise_cons]
      refine ⟨?_, hrest⟩
      intro b hb
      exact h1 ▸ hhead b hb
    · simp only [pollsInsert, if_neg h1]
      by_cases h2 : keyLtb k k' = true
      · simp only [if_pos h2]
        rw [keysSorted, List.pairwise_cons]
        refine ⟨?_, List.pairwise_cons.mpr ⟨hhead, hrest⟩⟩
        intro b hb
        rcases List.mem_cons.mp hb with h3 | h3
        · rw [h3]; exact h2
        · exact keyLtb_trans h2 (hhead b h3)
      · simp only [if_neg h2]
        rw [keysSorted, List.pairwise_cons]
        refine ⟨?_, ih hrest⟩
        intro b hb
        rcases mem_pollsInsert hb with h3 | h3
        · rw [h3]
          rcases keyLtb_resolve k k' with h4 | h4 | h4
          · exact absurd h4 h2
          · exact absurd h4.symm h1
          · exact h4
        · exact hhead b h3

/-! ### Success-path characterizations of the execute entry points -/

theorem execute_create_poll_ok {s : State} {sn pid q : String} {os : List String}
    {s' : State} (h : execute_create_poll s sn pid q os = .ok s') :
    os.length ≤ 10 ∧
      s' = { s with polls :=
              pollsInsert pid (Poll.mk sn q (os.map (fun o => (o, 0)))) s.polls } := by
  unfold execute_create_poll at h
  split at h
  · cases h
  · rename_i hlen
    injection h with h
    exact ⟨by omega, h.symm⟩

theorem ballotClosure_ok {poll : Poll} {c : String} {ob : Option Ballot}
    {opts1 : List (String × Nat)} {nb : Ballot}
    (h : ballotClosure poll c ob = .ok (opts1, nb)) :
    nb = { option := c } ∧
      ((ob = none ∧ opts1 = poll.options) ∨
        ∃ b pos, ob = some b ∧ positionOf b.option poll.options = some pos ∧
          decAt poll.options pos = some opts1) := by
  cases ob with
  | none =>
    simp only [ballotClosure] at h
    injection h with h
    injection h with h1 h2
    exact ⟨h2.symm, Or.inl ⟨rfl, h1.symm⟩⟩
  | some b =>
    simp only [ballotClosure] at h
    split at h
    · rename_i pos hpos
      split at h
      · rename_i opts hdec
        injection h with h
        injection h with h1 h2
        exact ⟨h2.symm, Or.inr ⟨b, pos, rfl, hpos, by rw [hdec, h1]⟩⟩
      · cases h
    · cases h

theorem execute_vote_ok {s : State} {sn pid c : String} {s' : State}
    (h : execute_vote s sn pid c = .ok s') :
    ∃ poll opts1 nb pos opts2,
      pollsGet pid s.polls = some poll ∧
      ballotClosure poll c (ballotsGet (sn, pid) s.ballots) = .ok (opts1, nb) ∧
      positionOf c opts1 = some pos ∧
      incAt opts1 pos = some opts2 ∧
      s' = { polls := pollsInsert pid { poll with options := opts2 } s.polls,
             ballots := ballotsInsert (sn, pid) nb s.ballots } := by
  unfold execute_vote at h
  split at h
  · cases h
  · rename_i poll hpg
    split at h
    · cases h
    · rename_i opts1 nb hbc
      split at h
      · cases h
      · rename_i pos hpos
        split at h
        · cases h
        · rename_i opts2 hinc
          injection h with h
          exact ⟨poll, opts1, nb, pos, opts2, hpg, hbc, hpos, hinc, h.symm⟩

theorem ballotClosure_eq_ok_none (poll : Poll) (c : String) :
    ballotClosure poll c none = .ok (poll.options, { option := c }) := rfl

theorem ballotClosure_eq_ok_some {poll : Poll} {b : Ballot} {pos : Nat}
    {opts' : List (String × Nat)} (c : String)
    (hpos : positionOf b.option poll.options = some pos)
    (hdec : decAt poll.options pos = some opts') :
    ballotClosure poll c (some b) = .ok (opts', { option := c }) := by
  simp only [ballotClosure, hpos, hdec]

theorem execute_vote_eq_ok {s : State} {sn pid c : String} {poll : Poll}
    {opts1 opts2 : List (String × Nat)} {nb : Ballot} {pos : Nat}
    (hpg : pollsGet pid s.polls = some poll)
    (hbc : ballotClosure poll c (ballotsGet (sn, pid) s.ballots) = .ok (opts1, nb))
    (hpos : positionOf c opts1 = some pos)
    (hinc : incAt opts1 pos = some opts2) :
    execute_vote s sn pid c =
      .ok { polls := pollsInsert pid { poll with options := opts2 } s.polls,
            ballots := ballotsInsert (sn, pid) nb s.ballots } := by
  simp only [execute_vote, hpg, hbc, hpos, hinc]

theorem execute_vote_eq_notFound {s : State} {pid : String} (sn c : String)
    (hpg : pollsGet pid s.polls = none) :
    execute_vote s sn pid c = .error (.contract .pollNotFound) := by
  simp only [execute_vote, hpg]

theorem execute_vote_eq_unauthorized {s : State} {sn pid c : String} {poll : Poll}
    {opts1 : List (String × Nat)} {nb : Ballot}
    (hpg : pollsGet pid s.polls = some poll)
    (hbc : ballotClosure poll c (ballotsGet (sn, pid) s.ballots) = .ok (opts1, nb))
    (hpos : positionOf c opts1 = none) :
    execute_vote s sn pid c = .error (.contract .unauthorized) := by
  simp only [execute_vote, hpg, hbc, hpos]

/-! ### Tally arithmetic lemmas -/

theorem sumTallies_incAt {opts opts' : List (String × Nat)} {pos : Nat}
    (h : incAt opts pos = some opts') :
    sumTallies opts' = sumTallies opts + 1 := by
  induction opts generalizing pos opts' with
  | nil => simp [incAt] at h
  | cons e rest ih =>
    obtain ⟨l, t⟩ := e
    cases pos with
    | zero =>
      simp only [incAt] at h
      split at h
      · injection h with h
        rw [← h]
        simp only [sumTallies, List.map_cons, List.sum_cons]
        omega
      · cases h
    | succ n =>
      simp only [incAt, Option.map_eq_some'] at h
      obtain ⟨a, ha, hb⟩ := h
      rw [← hb]
      simp only [sumTallies, List.map_cons, List.sum_cons]
      have := ih ha
      simp only [sumTallies] at this
      omega

theorem sumTallies_decAt {opts opts' : List (String × Nat)} {pos : Nat}
    (h : decAt opts pos = some opts') :
    sumTallies opts = sumTallies opts' + 1 := by
  induction opts generalizing pos opts' with
  | nil => simp [decAt] at h
  | cons e rest ih =>
    obtain ⟨l, t⟩ := e
    cases pos with
    | zero =>
      simp only [decAt] at h
      split at h
      · cases h
      · rename_i ht
        injection h with h
        rw [← h]
        simp only [sumTallies, List.map_cons, List.sum_cons]
        omega
    | succ n =>
      simp only [decAt, Option.map_eq_some'] at h
      obtain ⟨a, ha, hb⟩ := h
      rw [← hb]
      simp only [sumTallies, List.map_cons, List.sum_cons]
      have := ih ha
      simp only [sumTallies] at this
      omega

theorem sumTallies_zeros (os : List String) :
    sumTallies (os.map (fun o => (o, 0))) = 0 := by
  induction os with
  | nil => rfl
  | cons o rest ih => simpa [sumTallies] using ih

theorem decAt_labels {opts opts' : List (String × Nat)} {pos : Nat}
    (h : decAt opts pos = some opts') :
    opts'.map Prod.fst = opts.map Prod.fst := by
  induction opts generalizing pos opts' with
  | nil => simp [decAt] at h
  | cons e rest ih =>
    obtain ⟨l, t⟩ := e
    cases pos with
    | zero =>
      simp only [decAt] at h
      split at h
      · cases h
      · injection h with h
        rw [← h]
        simp
    | succ n =>
      simp only [decAt, Option.map_eq_some'] at h
      obtain ⟨a, ha, hb⟩ := h
      rw [← hb]
      simp [ih ha]

theorem positionOf_eq_of_labels {opts opts' : List (String × Nat)} (lbl : String)
    (h : opts'.map Prod.fst = opts.map Prod.fst) :
    positionOf lbl opts' = positionOf lbl opts := by
  induction opts generalizing opts' with
  | nil =>
    cases opts' with
    | nil => rfl
    | cons e' rest' => simp at h
  | cons e rest ih =>
    obtain ⟨l, t⟩ := e
    cases opts' with
    | nil => simp at h
    | cons e' rest' =>
      obtain ⟨l', t'⟩ := e'
      simp only [List.map_cons, List.cons.injEq] at h
      obtain ⟨h1, h2⟩ := h
      subst h1
      simp only [positionOf, ih h2]

theorem incAt_decAt {opts opts' : List (String × Nat)} {pos : Nat}
    (hdec : decAt opts pos = some opts')
    (hbound : ∀ e ∈ opts, e.2 < U64) : incAt opts' pos = some opts := by
  induction opts generalizing pos opts' with
  | nil => simp [decAt] at hdec
  | cons e rest ih =>
    obtain ⟨l, t⟩ := e
    cases pos with
    | zero =>
      simp only [decAt] at hdec
      split at hdec
      · cases hdec
      · rename_i ht
        injection hdec with hdec
        rw [← hdec]
        have hb : t < U64 := hbound (l, t) (List.mem_cons_self _ _)
        simp only [incAt]
        rw [if_pos (by omega)]
        have h1 : t - 1 + 1 = t := by omega
        rw [h1]
    | succ n =>
      simp only [decAt, Option.map_eq_some'] at hdec
      obtain ⟨a, ha, hb⟩ := hdec
      rw [← hb]
      simp only [incAt, Option.map_eq_some']
      exact ⟨rest, ih ha (fun e he => hbound e (List.mem_cons_of_mem _ he)), rfl⟩

/-! ### Effect of decrements and increments on per-label tallies -/

theorem tallyOf_decAt_self {lbl : String} {opts opts' : List (String × Nat)} {pos : Nat}
    (hpos : positionOf lbl opts = some pos) (hdec : decAt opts pos = some opts') :
    ∃ t, tallyOf lbl opts = some t ∧ t ≠ 0 ∧ tallyOf lbl opts' = some (t - 1) := by
  induction opts generalizing pos opts' with
  | nil => simp [positionOf] at hpos
  | cons e rest ih =>
    obtain ⟨l, t⟩ := e
    by_cases hl : l = lbl
    · simp only [positionOf, if_pos hl] at hpos
      injection hpos with hpos
      rw [← hpos] at hdec
      simp only [decAt] at hdec
      split at hdec
      · cases hdec
      · rename_i ht
        injection hdec with hdec
        rw [← hdec]
        exact ⟨t, by simp [tallyOf, hl], ht, by simp [tallyOf, hl]⟩
    · simp only [positionOf, if_neg hl, Option.map_eq_some'] at hpos
      obtain ⟨p0, hp0, hpe⟩ := hpos
      rw [← hpe] at hdec
      simp only [decAt, Option.map_eq_some'] at hdec
      obtain ⟨a, ha, hb⟩ := hdec
      obtain ⟨t0, h1, h2, h3⟩ := ih hp0 ha
      refine ⟨t0, ?_, h2, ?_⟩
      · simp [tallyOf, hl, h1]
      · rw [← hb]; simp [tallyOf, hl, h3]

theorem tallyOf_decAt_ne {lbl lbl' : String} {opts opts' : List (String × Nat)}
    {pos : Nat} (hpos : positionOf lbl opts = some pos)
    (hdec : decAt opts pos = some opts') (hne : lbl' ≠ lbl) :
    tallyOf lbl' opts' = tallyOf lbl' opts := by
  induction opts generalizing pos opts' with
  | nil => simp [positionOf] at hpos
  | cons e rest ih =>
    obtain ⟨l, t⟩ := e
    by_cases hl : l = lbl
    · simp only [positionOf, if_pos hl] at hpos
      injection hpos with hpos
      rw [← hpos] at hdec
      simp only [decAt] at hdec
      split at hdec
      · cases hdec
      · injection hdec with hdec
        rw [← hdec]
        have hl' : ¬ l = lbl' := fun hc => hne (hc ▸ hl)
        simp [tallyOf, hl']
    · simp only [positionOf, if_neg hl, Option.map_eq_some'] at hpos
      obtain ⟨p0, hp0, hpe⟩ := hpos
      rw [← hpe] at hdec
      simp only [decAt, Option.map_eq_some'] at hdec
      obtain ⟨a, ha, hb⟩ := hdec
      rw [← hb]
      by_cases hl2 : l = lbl'
      · simp [tallyOf, hl2]
      · simp [tallyOf, hl2, ih hp0 ha]

theorem tallyOf_incAt_self {lbl : String} {opts opts' : List (String × Nat)} {pos : Nat}
    (hpos : positionOf lbl opts = some pos) (hinc : incAt opts pos = some opts') :
    ∃ t, tallyOf lbl opts = some t ∧ t + 1 < U64 ∧ tallyOf lbl opts' = some (t + 1) := by
  induction opts generalizing pos opts' with
  | nil => simp [positionOf] at hpos
  | cons e rest ih =>
    obtain ⟨l, t⟩ := e
    by_cases hl : l = lbl
    · simp only [positionOf, if_pos hl] at hpos
      injection hpos with hpos
      rw [← hpos] at hinc
      simp only [incAt] at hinc
      split at hinc
      · rename_i ht
        injection hinc with hinc
        rw [← hinc]
        exact ⟨t, by simp [tallyOf, hl], ht, by simp [tallyOf, hl]⟩
      · cases hinc
    · simp only [positionOf, if_neg hl, Option.map_eq_some'] at hpos
      obtain ⟨p0, hp0, hpe⟩ := hpos
      rw [← hpe] at hinc
      simp only [incAt, Option.map_eq_some'] at hinc
      obtain ⟨a, ha, hb⟩ := hinc
      obtain ⟨t0, h1, h2, h3⟩ := ih hp0 ha
      refine ⟨t0, ?_, h2, ?_⟩
      · simp [tallyOf, hl, h1]
      · rw [← hb]; simp [tallyOf, hl, h3]

theorem tallyOf_incAt_ne {lbl lbl' : String} {opts opts' : List (String × Nat)}
    {pos : Nat} (hpos : positionOf lbl opts = some pos)
    (hinc : incAt opts pos = some opts') (hne : lbl' ≠ lbl) :
    tallyOf lbl' opts' = tallyOf lbl' opts := by
  induction opts generalizing pos opts' with
  | nil => simp [positionOf] at hpos
  | cons e rest ih =>
    obtain ⟨l, t⟩ := e
    by_cases hl : l = lbl
    · simp only [positionOf, if_pos hl] at hpos
      injection hpos with hpos
      rw [← hpos] at hinc
      simp only [incAt] at hinc
      split at hinc
      · injection hinc with hinc
        rw [← hinc]
        have hl' : ¬ l = lbl' := fun hc => hne (hc ▸ hl)
        simp [tallyOf, hl']
      · cases hinc
    · simp only [positionOf, if_neg hl, Option.map_eq_some'] at hpos
      obtain ⟨p0, hp0, hpe⟩ := hpos
      rw [← hpe] at hinc
      simp only [incAt, Option.map_eq_some'] at hinc
      obtain ⟨a, ha, hb⟩ := hinc
      rw [← hb]
      by_cases hl2 : l = lbl'
      · simp [tallyOf, hl2]
      · simp [tallyOf, hl2, ih hp0 ha]

/-! ### Reachable-state invariants: sorted poll keys and duplicate-free
ballot keys -/

theorem keysSorted_applyOp {s : State} (op : Op) (hs : keysSorted s.polls) :
    keysSorted (applyOp s op).polls := by
  unfold applyOp
  cases hro : runOp s op with
  | error e => exact hs
  | ok s' =>
    cases op with
    | createPoll sn pid q os =>
      simp only [runOp] at hro
      obtain ⟨-, h2⟩ := execute_create_poll_ok hro
      rw [h2]
      exact keysSorted_insert hs pid _
    | vote sn pid c =>
      simp only [runOp] at hro
      obtain ⟨poll, opts1, nb, pos, opts2, h1, h2, h3, h4, h5⟩ := execute_vote_ok hro
      rw [h5]
      exact keysSorted_insert hs pid _

theorem keysSorted_applyOps {s : State} (hs : keysSorted s.polls)
    (ops : List Op) : keysSorted (applyOps s ops).polls := by
  induction ops generalizing s with
  | nil => exact hs
  | cons op rest ih => exact ih (keysSorted_applyOp op hs)

theorem keysSorted_reach (ops : List Op) : keysSorted (reach ops).polls :=
  keysSorted_applyOps (by simp [emptyState, keysSorted]) ops

theorem ballotKeysNodup_applyOp {s : State} (op : Op) (h : ballotKeysNodup s) :
    ballotKeysNodup (applyOp s op) := by
  unfold applyOp
  cases hro : runOp s op with
  | error e => exact h
  | ok s' =>
    cases op with
    | createPoll sn pid q os =>
      simp only [runOp] at hro
      obtain ⟨-, h2⟩ := execute_create_poll_ok hro
      rw [h2]
      exact h
    | vote sn pid c =>
      simp only [runOp] at hro
      obtain ⟨poll, opts1, nb, pos, opts2, h1, h2, h3, h4, h5⟩ := execute_vote_ok hro
      rw [h5]
      unfold ballotKeysNodup
      cases hbg : ballotsGet (sn, pid) s.ballots with
      | some b0 =>
        rw [ballotsInsert_map_fst_of_get_some hbg]
        exact h
      | none =>
        rw [ballotsInsert_of_get_none hbg, List.map_append]
        refine List.nodup_append.mpr ⟨h, List.nodup_singleton _, ?_⟩
        intro a ha hb
        simp only [List.map_cons, List.map_nil, List.mem_singleton] at hb
        rw [hb] at ha
        exact not_mem_of_ballotsGet_eq_none hbg ha

theorem ballotKeysNodup_applyOps {s : State} (h : ballotKeysNodup s)
    (ops : List Op) : ballotKeysNodup (applyOps s ops) := by
  induction ops generalizing s with
  | nil => exact h
  | cons op rest ih => exact ih (ballotKeysNodup_applyOp op h)

theorem ballotKeysNodup_reach (ops : List Op) : ballotKeysNodup (reach ops) :=
  ballotKeysNodup_applyOps (by simp [emptyState, ballotKeysNodup]) ops

/-! ### Counting ballots per poll -/

theorem ballotsFor_length_eq (p : String) (bs : List ((String × String) × Ballot)) :
    (ballotsFor p bs).length = (bs.map Prod.fst).countP (fun k => k.2 == p) := by
  rw [List.countP_map]
  induction bs with
  | nil => rfl
  | cons e rest ih =>
    obtain ⟨k, b⟩ := e
    by_cases hp : (k.2 == p) = true
    · simpa [ballotsFor, List.filter_cons, hp, List.countP_cons] using ih
    · simpa [ballotsFor, List.filter_cons, hp, List.countP_cons] using ih

theorem ballotsFor_length_insert_some {p : String} {k : String × String}
    {b0 : Ballot} {bs : List ((String × String) × Ballot)}
    (h : ballotsGet k bs = some b0) (v : Ballot) :
    (ballotsFor p (ballotsInsert k v bs)).length = (ballotsFor p bs).length := by
  rw [ballotsFor_length_eq, ballotsFor_length_eq,
      ballotsInsert_map_fst_of_get_some h]

theorem ballotsFor_length_insert_none {p : String} {k : String × String}
    {bs : List ((String × String) × Ballot)} (h : ballotsGet k bs = none)
    (v : Ballot) :
    (ballotsFor p (ballotsInsert k v bs)).length =
      (ballotsFor p bs).length + (if k.2 = p then 1 else 0) := by
  rw [ballotsInsert_of_get_none h]
  unfold ballotsFor
  rw [List.filter_append, List.length_append]
  by_cases hk : (k.2 == p) = true
  · simp [List.filter_cons, hk, beq_iff_eq.mp hk]
  · have hk' : ¬ k.2 = p := fun hc => hk (beq_iff_eq.mpr hc)
    simp [List.filter_cons, hk, hk']

/-! ### The sum-of-tallies invariant -/

/-- For poll p: the poll exists and the sum of its stored tallies equals
the number of ballots recorded for it. -/
def SumInv (p : String) (s : State) : Prop :=
  ∃ poll, pollsGet p s.polls = some poll ∧
    sumTallies poll.options = (ballotsFor p s.ballots).length

theorem sumInv_vote {p : String} {s : State} (sn pid c : String)
    (hinv : SumInv p s) : SumInv p (applyOp s (.vote sn pid c)) := by
  unfold applyOp
  cases hro : runOp s (.vote sn pid c) with
  | error e => exact hinv
  | ok s' =>
    simp only [runOp] at hro
    obtain ⟨poll0, hpg0, hsum⟩ := hinv
    obtain ⟨poll, opts1, nb, pos, opts2, hpg, hbc, hpos, hinc, h5⟩ := execute_vote_ok hro
    subst h5
    by_cases hpid : pid = p
    · subst hpid
      rw [hpg] at hpg0
      injection hpg0 with hpq
      subst hpq
      refine ⟨{ poll with options := opts2 }, pollsGet_insert_self _ _ _, ?_⟩
      obtain ⟨hnb, hcases⟩ := ballotClosure_ok hbc
      rcases hcases with ⟨hob, hopts1⟩ | ⟨b, pos0, hob, hpos0, hdec⟩
      · subst hopts1
        have h1 := sumTallies_incAt hinc
        rw [ballotsFor_length_insert_none hob, if_pos rfl]
        change sumTallies opts2 = _
        omega
      · have h1 := sumTallies_incAt hinc
        have h2 := sumTallies_decAt hdec
        rw [ballotsFor_length_insert_some hob]
        change sumTallies opts2 = _
        omega
    · refine ⟨poll0, ?_, ?_⟩
      · rw [pollsGet_insert_ne (fun hc => hpid hc.symm)]
        exact hpg0
      cases hbg : ballotsGet (sn, pid) s.ballots with
      | some b0 =>
        rw [ballotsFor_length_insert_some hbg]
        exact hsum
      | none =>
        rw [ballotsFor_length_insert_none hbg]
        simp only [if_neg hpid]
        omega

theorem sumInv_applyVotes {p : String} {s : State} (hinv : SumInv p s)
    (vs : List (String × String × String)) : SumInv p (applyVotes s vs) := by
  induction vs generalizing s with
  | nil => exact hinv
  | cons v rest ih =>
    obtain ⟨sn, pid, c⟩ := v
    exact ih (sumInv_vote sn pid c hinv)

theorem ballotKeysNodup_applyVotes {s : State} (h : ballotKeysNodup s)
    (vs : List (String × String × String)) : ballotKeysNodup (applyVotes s vs) := by
  induction vs generalizing s with
  | nil => exact h
  | cons v rest ih =>
    obtain ⟨sn, pid, c⟩ := v
    exact ih (ballotKeysNodup_applyOp _ h)

theorem ballotsFor_voters_nodup {p : String} {s : State} (h : ballotKeysNodup s) :
    ((ballotsFor p s.ballots).map (fun e => e.1.1)).Nodup := by
  have h1 : (ballotsFor p s.ballots).Sublist s.ballots := List.filter_sublist _
  have h2 : ((ballotsFor p s.ballots).map Prod.fst).Sublist
      (s.ballots.map Prod.fst) := h1.map _
  have h3 : ((ballotsFor p s.ballots).map Prod.fst).Nodup := h2.nodup h
  have h4 : ∀ x ∈ (ballotsFor p s.ballots).map Prod.fst, x.2 = p := by
    intro x hx
    obtain ⟨e, he, hex⟩ := List.mem_map.mp hx
    have := List.of_mem_filter he
    rw [← hex]
    exact beq_iff_eq.mp this
  have h5 := h3.map_on (f := fun k : String × String => k.1) ?_
  · have h6 : ((ballotsFor p s.ballots).map Prod.fst).map
        (fun k : String × String => k.1) =
        (ballotsFor p s.ballots).map (fun e => e.1.1) := by
      rw [List.map_map]; rfl
    rw [h6] at h5
    exact h5
  · intro x hx y hy hxy
    have hx2 := h4 x hx
    have hy2 := h4 y hy
    exact Prod.ext hxy (hx2.trans hy2.symm)

theorem decAt_isSome {lbl : String} {opts : List (String × Nat)} {pos t : Nat}
    (hpos : positionOf lbl opts = some pos) (ht : tallyOf lbl opts = some t)
    (hnz : t ≠ 0) : ∃ opts', decAt opts pos = some opts' := by
  induction opts generalizing pos with
  | nil => simp [positionOf] at hpos
  | cons e rest ih =>
    obtain ⟨l, t0⟩ := e
    by_cases hl : l = lbl
    · simp only [positionOf, if_pos hl] at hpos
      injection hpos with hpos
      simp only [tallyOf, if_pos hl] at ht
      injection ht with ht
      rw [← hpos]
      simp only [decAt]
      rw [if_neg (by omega)]
      exact ⟨_, rfl⟩
    · simp only [positionOf, if_neg hl, Option.map_eq_some'] at hpos
      obtain ⟨p0, hp0, hpe⟩ := hpos
      simp only [tallyOf, if_neg hl] at ht
      obtain ⟨a, ha⟩ := ih hp0 ht
      rw [← hpe]
      exact ⟨(l, t0) :: a, by simp [decAt, ha]⟩

theorem incAt_isSome {lbl : String} {opts : List (String × Nat)} {pos t : Nat}
    (hpos : positionOf lbl opts = some pos) (ht : tallyOf lbl opts = some t)
    (hlt : t + 1 < U64) : ∃ opts', incAt opts pos = some opts' := by
  induction opts generalizing pos with
  | nil => simp [positionOf] at hpos
  | cons e rest ih =>
    obtain ⟨l, t0⟩ := e
    by_cases hl : l = lbl
    · simp only [positionOf, if_pos hl] at hpos
      injection hpos with hpos
      simp only [tallyOf, if_pos hl] at ht
      injection ht with ht
      rw [← hpos]
      simp only [incAt]
      rw [if_pos (by omega)]
      exact ⟨_, rfl⟩
    · simp only [positionOf, if_neg hl, Option.map_eq_some'] at hpos
      obtain ⟨p0, hp0, hpe⟩ := hpos
      simp only [tallyOf, if_neg hl] at ht
      obtain ⟨a, ha⟩ := ih hp0 ht
      rw [← hpe]
      exact ⟨(l, t0) :: a, by simp [incAt, ha]⟩

theorem ballotsGet_of_mem {k : String × String} {b : Ballot}
    {bs : List ((String × String) × Ballot)} (hnd : (bs.map Prod.fst).Nodup)
    (hmem : (k, b) ∈ bs) : ballotsGet k bs = some b := by
  induction bs with
  | nil => cases hmem
  | cons e rest ih =>
    obtain ⟨k', b'⟩ := e
    simp only [List.map_cons, List.nodup_cons] at hnd
    rcases List.mem_cons.mp hmem with h | h
    · rw [Prod.mk.injEq] at h
      obtain ⟨h1, h2⟩ := h
      subst h1
      subst h2
      simp [ballotsGet]
    · by_cases hk : k' = k
      · exfalso
        apply hnd.1
        rw [hk]
        exact List.mem_map.mpr ⟨(k, b), h, rfl⟩
      · simp [ballotsGet, hk, ih hnd.2 h]

/-! ### Claim theorems -/

/-- Claim C1: for every poll, after any sequence of cast_vote
operations applied since the creation of the poll (with no create_poll
overwrite of the same poll id in between, and no stale ballots at
creation), the sum of all option tallies of the stored Poll equals the
number of distinct voters holding a Ballot for that poll. -/
theorem C1_sum_tallies_eq_distinct_voters
    {s0 s1 : State} {creator p question : String} {os : List String}
    (hwf : ballotKeysNodup s0)
    (hnb : ∀ e ∈ s0.ballots, e.1.2 ≠ p)
    (hcr : execute_create_poll s0 creator p question os = .ok s1)
    (votes : List (String × String × String)) :
    ∃ poll, pollsGet p (applyVotes s1 votes).polls = some poll ∧
      sumTallies poll.options = (ballotsFor p (applyVotes s1 votes).ballots).length ∧
      ((ballotsFor p (applyVotes s1 votes).ballots).map (fun e => e.1.1)).Nodup := by
  obtain ⟨-, h2⟩ := execute_create_poll_ok hcr
  have hinv1 : SumInv p s1 := by
    rw [h2]
    refine ⟨Poll.mk creator question (os.map (fun o => (o, 0))),
      pollsGet_insert_self _ _ _, ?_⟩
    have hz := sumTallies_zeros os
    have he : (ballotsFor p s0.ballots).length = 0 := by
      rw [List.length_eq_zero, ballotsFor, List.filter_eq_nil_iff]
      intro e hee
      exact fun hc => hnb e hee (beq_iff_eq.mp hc)
    show sumTallies (os.map (fun o => (o, 0))) = (ballotsFor p s0.ballots).length
    rw [hz, he]
  have hwf1 : ballotKeysNodup s1 := by rw [h2]; exact hwf
  obtain ⟨poll, hp1, hp2⟩ := sumInv_applyVotes hinv1 votes
  exact ⟨poll, hp1, hp2,
    ballotsFor_voters_nodup (ballotKeysNodup_applyVotes hwf1 votes)⟩

/-- Witness for C1 at a concrete run: fresh storage, a poll with two
options, three votes by two voters (one vote change among them). -/
theorem C1_witness :
    ballotKeysNodup emptyState ∧
    (∀ e ∈ emptyState.ballots, e.1.2 ≠ "p1") ∧
    execute_create_poll emptyState "c" "p1" "q" ["A", "B"] =
      .ok { polls := [("p1", Poll.mk "c" "q" [("A", 0), ("B", 0)])], ballots := [] } ∧
    (∃ poll, pollsGet "p1" (applyVotes
        { polls := [("p1", Poll.mk "c" "q" [("A", 0), ("B", 0)])], ballots := [] }
        [("v1", "p1", "A"), ("v1", "p1", "B"), ("v2", "p1", "A")]).polls = some poll ∧
      sumTallies poll.options = (ballotsFor "p1" (applyVotes
        { polls := [("p1", Poll.mk "c" "q" [("A", 0), ("B", 0)])], ballots := [] }
        [("v1", "p1", "A"), ("v1", "p1", "B"), ("v2", "p1", "A")]).ballots).length ∧
      ((ballotsFor "p1" (applyVotes
        { polls := [("p1", Poll.mk "c" "q" [("A", 0), ("B", 0)])], ballots := [] }
        [("v1", "p1", "A"), ("v1", "p1", "B"), ("v2", "p1", "A")]).ballots).map
          (fun e => e.1.1)).Nodup) :=
  ⟨by simp [ballotKeysNodup, emptyState], by simp [emptyState], rfl,
    @C1_sum_tallies_eq_distinct_voters emptyState
      { polls := [("p1", Poll.mk "c" "q" [("A", 0), ("B", 0)])], ballots := [] }
      "c" "p1" "q" ["A", "B"]
      (by simp [ballotKeysNodup, emptyState]) (by simp [emptyState]) rfl
      [("v1", "p1", "A"), ("v1", "p1", "B"), ("v2", "p1", "A")]⟩

/-- Counterexample to claim C2: create poll p1 with options A and B,
voter v1 votes A, then B, then B again.  The claim predicts the stored
tally of B rises from 1 to 2 on the same-option revote; the code leaves
it at 1, because the update closure decrements the old (equal) option
before the increment. -/
theorem C2_counterexample :
    execute_vote
        (reach [.createPoll "c" "p1" "q" ["A", "B"], .vote "v1" "p1" "A",
          .vote "v1" "p1" "B"]) "v1" "p1" "B" =
      .ok { polls := [("p1", Poll.mk "c" "q" [("A", 0), ("B", 1)])],
            ballots := [(("v1", "p1"), { option := "B" })] } ∧
    query_vote (reach [.createPoll "c" "p1" "q" ["A", "B"], .vote "v1" "p1" "A",
        .vote "v1" "p1" "B"]) "v1" "p1" = some { option := "B" } ∧
    query_poll (reach [.createPoll "c" "p1" "q" ["A", "B"], .vote "v1" "p1" "A",
        .vote "v1" "p1" "B"]) "p1" = some (Poll.mk "c" "q" [("A", 0), ("B", 1)]) ∧
    tallyOf "B" [("A", 0), ("B", 1)] = some 1 ∧
    ¬ tallyOf "B" [("A", 0), ("B", 1)] = some (1 + 1) :=
  ⟨rfl, rfl, rfl, rfl, by decide⟩

/-- Claim C2 as amended: when a voter revotes for the option already
recorded in their Ballot, the decrement of the old option and the
increment of the new option hit the same entry, so the call succeeds
and the stored Poll is unchanged; only the Ballot is rewritten (to the
same value). -/
theorem C2_same_option_revote_noop
    {s : State} {sn pid c : String} {poll : Poll} {pos t : Nat}
    (hpg : pollsGet pid s.polls = some poll)
    (hob : ballotsGet (sn, pid) s.ballots = some { option := c })
    (hpos : positionOf c poll.options = some pos)
    (ht : tallyOf c poll.options = some t) (hnz : t ≠ 0)
    (hbound : ∀ e ∈ poll.options, e.2 < U64) :
    ∃ s', execute_vote s sn pid c = .ok s' ∧
      query_poll s' pid = some poll ∧
      query_vote s' sn pid = some { option := c } := by
  obtain ⟨opts1, hdec⟩ := decAt_isSome hpos ht hnz
  have hbc : ballotClosure poll c (ballotsGet (sn, pid) s.ballots) =
      .ok (opts1, { option := c }) := by
    rw [hob]
    exact ballotClosure_eq_ok_some c hpos hdec
  have hpos1 : positionOf c opts1 = some pos := by
    rw [positionOf_eq_of_labels c (decAt_labels hdec), hpos]
  have hinc : incAt opts1 pos = some poll.options := incAt_decAt hdec hbound
  have hok := execute_vote_eq_ok hpg hbc hpos1 hinc
  refine ⟨_, hok, ?_, ?_⟩
  · show pollsGet pid
        (pollsInsert pid { poll with options := poll.options } s.polls) = some poll
    exact pollsGet_insert_self _ _ _
  · show ballotsGet (sn, pid)
        (ballotsInsert (sn, pid) { option := c } s.ballots) = some { option := c }
    exact ballotsGet_insert_self _ _ _

/-- Witness for the amended C2: the concrete revote of B in the
counterexample state keeps the tallies at A = 0, B = 1. -/
theorem C2_witness :
    ∃ s', execute_vote
        { polls := [("p1", Poll.mk "c" "q" [("A", 0), ("B", 1)])],
          ballots := [(("v1", "p1"), { option := "B" })] } "v1" "p1" "B" = .ok s' ∧
      query_poll s' "p1" = some (Poll.mk "c" "q" [("A", 0), ("B", 1)]) ∧
      query_vote s' "v1" "p1" = some { option := "B" } :=
  C2_same_option_revote_noop rfl rfl rfl rfl (by decide) (by decide)

/-- Claim C3: a cast_vote on an existing poll with an option label that
matches no option fails with the Unauthorized error (the source name of
the invalid-option condition), and the transaction leaves every Poll
and Ballot unchanged.  The voter either has no prior Ballot, or a prior
Ballot whose option is still present with a nonzero tally (otherwise
the call aborts before the option check, see C10). -/
theorem C3_invalid_option_unauthorized
    {s : State} {sn pid c : String} {poll : Poll}
    (hpg : pollsGet pid s.polls = some poll)
    (hinv : positionOf c poll.options = none)
    (hball : ballotsGet (sn, pid) s.ballots = none ∨
      ∃ b pos t, ballotsGet (sn, pid) s.ballots = some b ∧
        positionOf b.option poll.options = some pos ∧
        tallyOf b.option poll.options = some t ∧ t ≠ 0) :
    execute_vote s sn pid c = .error (.contract .unauthorized) ∧
    applyOp s (.vote sn pid c) = s := by
  have herr : execute_vote s sn pid c = .error (.contract .unauthorized) := by
    rcases hball with hob | ⟨b, pos, t, hob, hpos, ht, hnz⟩
    · have hbc : ballotClosure poll c (ballotsGet (sn, pid) s.ballots) =
          .ok (poll.options, { option := c }) := by
        rw [hob]
        exact ballotClosure_eq_ok_none poll c
      exact execute_vote_eq_unauthorized hpg hbc hinv
    · obtain ⟨opts1, hdec⟩ := decAt_isSome hpos ht hnz
      have hbc : ballotClosure poll c (ballotsGet (sn, pid) s.ballots) =
          .ok (opts1, { option := c }) := by
        rw [hob]
        exact ballotClosure_eq_ok_some c hpos hdec
      have hpos1 : positionOf c opts1 = none := by
        rw [positionOf_eq_of_labels c (decAt_labels hdec), hinv]
      exact execute_vote_eq_unauthorized hpg hbc hpos1
  exact ⟨herr, by simp [applyOp, runOp, herr]⟩

/-- Witness for C3: voting for the absent option Z on a one-option poll
fails with Unauthorized and leaves the state untouched. -/
theorem C3_witness :
    execute_vote { polls := [("p", Poll.mk "c" "q" [("A", 0)])], ballots := [] }
        "v" "p" "Z" = .error (.contract .unauthorized) ∧
    applyOp { polls := [("p", Poll.mk "c" "q" [("A", 0)])], ballots := [] }
        (.vote "v" "p" "Z") =
      { polls := [("p", Poll.mk "c" "q" [("A", 0)])], ballots := [] } :=
  C3_invalid_option_unauthorized rfl rfl (Or.inl rfl)

/-- Claim C4: a cast_vote on an existing poll with a valid option
either creates a Ballot for the voter and increments the chosen tally
by 1 (no prior Ballot), or decrements the prior option tally by 1,
rewrites the Ballot to the new label and increments the new option
tally by 1 (prior Ballot for a different option), leaving every other
tally untouched. -/
theorem C4_vote_transitions
    {s : State} {sn pid c : String} {poll : Poll} {pv : Nat}
    (hpg : pollsGet pid s.polls = some poll)
    (hpos : positionOf c poll.options = some pv) :
    ((ballotsGet (sn, pid) s.ballots = none →
      ∀ t, tallyOf c poll.options = some t → t + 1 < U64 →
      ∃ s' opts2, execute_vote s sn pid c = .ok s' ∧
        query_vote s' sn pid = some { option := c } ∧
        query_poll s' pid = some { poll with options := opts2 } ∧
        tallyOf c opts2 = some (t + 1) ∧
        (∀ lbl, lbl ≠ c → tallyOf lbl opts2 = tallyOf lbl poll.options)) ∧
     (∀ b, ballotsGet (sn, pid) s.ballots = some b → b.option ≠ c →
      ∀ po tOld tNew, positionOf b.option poll.options = some po →
        tallyOf b.option poll.options = some tOld → tOld ≠ 0 →
        tallyOf c poll.options = some tNew → tNew + 1 < U64 →
      ∃ s' opts2, execute_vote s sn pid c = .ok s' ∧
        query_vote s' sn pid = some { option := c } ∧
        query_poll s' pid = some { poll with options := opts2 } ∧
        tallyOf b.option opts2 = some (tOld - 1) ∧
        tallyOf c opts2 = some (tNew + 1) ∧
        (∀ lbl, lbl ≠ c → lbl ≠ b.option →
          tallyOf lbl opts2 = tallyOf lbl poll.options))) := by
  constructor
  · intro hob t ht hlt
    obtain ⟨opts2, hinc⟩ := incAt_isSome hpos ht hlt
    have hbc : ballotClosure poll c (ballotsGet (sn, pid) s.ballots) =
        .ok (poll.options, { option := c }) := by
      rw [hob]
      exact ballotClosure_eq_ok_none poll c
    have hok := execute_vote_eq_ok hpg hbc hpos hinc
    refine ⟨_, opts2, hok, ballotsGet_insert_self _ _ _,
      pollsGet_insert_self _ _ _, ?_, ?_⟩
    · obtain ⟨t', h1, h2, h3⟩ := tallyOf_incAt_self hpos hinc
      rw [ht] at h1
      injection h1 with h1
      rw [← h1] at h3
      exact h3
    · intro lbl hlbl
      exact tallyOf_incAt_ne hpos hinc hlbl
  · intro b hob hbne po tOld tNew hpo htOld hnz htNew hlt
    obtain ⟨opts1, hdec⟩ := decAt_isSome hpo htOld hnz
    have hlb := decAt_labels hdec
    have hpos1 : positionOf c opts1 = some pv := by
      rw [positionOf_eq_of_labels c hlb, hpos]
    have htNew1 : tallyOf c opts1 = some tNew := by
      rw [tallyOf_decAt_ne hpo hdec (Ne.symm hbne)]
      exact htNew
    obtain ⟨opts2, hinc⟩ := incAt_isSome hpos1 htNew1 hlt
    have hbcl : ballotClosure poll c (ballotsGet (sn, pid) s.ballots) =
        .ok (opts1, { option := c }) := by
      rw [hob]
      exact ballotClosure_eq_ok_some c hpo hdec
    have hok := execute_vote_eq_ok hpg hbcl hpos1 hinc
    refine ⟨_, opts2, hok, ballotsGet_insert_self _ _ _,
      pollsGet_insert_self _ _ _, ?_, ?_, ?_⟩
    · rw [tallyOf_incAt_ne hpos1 hinc hbne]
      obtain ⟨t0, h1, h2, h3⟩ := tallyOf_decAt_self hpo hdec
      rw [htOld] at h1
      injection h1 with h1
      rw [← h1] at h3
      exact h3
    · obtain ⟨t', h1, h2, h3⟩ := tallyOf_incAt_self hpos1 hinc
      rw [htNew1] at h1
      injection h1 with h1
      rw [← h1] at h3
      exact h3
    · intro lbl hlc hlb2
      rw [tallyOf_incAt_ne hpos1 hinc hlc, tallyOf_decAt_ne hpo hdec hlb2]

/-- Witness for C4: in the state where v1 holds a Ballot for A on poll
p1 with tallies A = 1, B = 0, a fresh vote by v2 for A increments A,
and a vote change by v1 to B decrements A and increments B. -/
theorem C4_witness :
    (∃ s' opts2, execute_vote
        { polls := [("p1", Poll.mk "c" "q" [("A", 1), ("B", 0)])],
          ballots := [(("v1", "p1"), { option := "A" })] } "v2" "p1" "A" = .ok s' ∧
      query_vote s' "v2" "p1" = some { option := "A" } ∧
      query_poll s' "p1" =
        some { Poll.mk "c" "q" [("A", 1), ("B", 0)] with options := opts2 } ∧
      tallyOf "A" opts2 = some (1 + 1) ∧
      (∀ lbl, lbl ≠ "A" →
        tallyOf lbl opts2 = tallyOf lbl [("A", 1), ("B", 0)])) ∧
    (∃ s' opts2, execute_vote
        { polls := [("p1", Poll.mk "c" "q" [("A", 1), ("B", 0)])],
          ballots := [(("v1", "p1"), { option := "A" })] } "v1" "p1" "B" = .ok s' ∧
      query_vote s' "v1" "p1" = some { option := "B" } ∧
      query_poll s' "p1" =
        some { Poll.mk "c" "q" [("A", 1), ("B", 0)] with options := opts2 } ∧
      tallyOf "A" opts2 = some (1 - 1) ∧
      tallyOf "B" opts2 = some (0 + 1) ∧
      (∀ lbl, lbl ≠ "B" → lbl ≠ "A" →
        tallyOf lbl opts2 = tallyOf lbl [("A", 1), ("B", 0)])) :=
  ⟨(@C4_vote_transitions
      { polls := [("p1", Poll.mk "c" "q" [("A", 1), ("B", 0)])],
        ballots := [(("v1", "p1"), { option := "A" })] }
      "v2" "p1" "A" (Poll.mk "c" "q" [("A", 1), ("B", 0)]) 0 rfl rfl).1
      rfl 1 rfl (by decide),
   (@C4_vote_transitions
      { polls := [("p1", Poll.mk "c" "q" [("A", 1), ("B", 0)])],
        ballots := [(("v1", "p1"), { option := "A" })] }
      "v1" "p1" "B" (Poll.mk "c" "q" [("A", 1), ("B", 0)]) 1 rfl rfl).2
      { option := "A" } rfl (by decide) 0 1 0 rfl rfl (by decide) rfl (by decide)⟩

/-- Claim C5: create_poll fails with TooManyOptions exactly when more
than 10 options are supplied; 11 options fail and 10 succeed. -/
theorem C5_too_many_options :
    (∀ (s : State) (sn pid q : String) (os : List String),
      os.length > 10 ↔
        execute_create_poll s sn pid q os = .error (.contract .tooManyOptions)) ∧
    execute_create_poll emptyState "c" "p" "q"
        ["1", "2", "3", "4", "5", "6", "7", "8", "9", "10", "11"] =
      .error (.contract .tooManyOptions) ∧
    (∃ s', execute_create_poll emptyState "c" "p" "q"
        ["1", "2", "3", "4", "5", "6", "7", "8", "9", "10"] = .ok s') := by
  refine ⟨?_, rfl, ⟨_, rfl⟩⟩
  intro s sn pid q os
  constructor
  · intro h
    simp [execute_create_poll, h]
  · intro h
    by_contra hlen
    simp [execute_create_poll, hlen] at h

/-- Claim C6: a successful create_poll stores exactly one Poll under
poll_id whose options are the supplied labels in input order, each with
tally 0; every other poll and all ballots are untouched.  No duplicate
label or fresh poll id check is made: the conclusion holds for any
prior state, so an existing poll at poll_id is silently replaced. -/
theorem C6_create_poll_overwrites
    (s : State) (sn pid q : String) (os : List String)
    (hlen : os.length ≤ 10) :
    ∃ s', execute_create_poll s sn pid q os = .ok s' ∧
      query_poll s' pid = some (Poll.mk sn q (os.map (fun o => (o, 0)))) ∧
      (∀ other, other ≠ pid → query_poll s' other = query_poll s other) ∧
      s'.ballots = s.ballots := by
  have hok : execute_create_poll s sn pid q os =
      .ok { s with polls :=
        pollsInsert pid (Poll.mk sn q (os.map (fun o => (o, 0)))) s.polls } := by
    simp only [execute_create_poll]
    rw [if_neg (by omega)]
  refine ⟨_, hok, pollsGet_insert_self _ _ _,
    fun other hne => pollsGet_insert_ne hne _ _, rfl⟩

/-- Witness for C6: recreating poll p1 with the duplicate label list
[A, A] replaces the existing poll (tallies reset to 0) and keeps both
copies of the label in order. -/
theorem C6_witness :
    (["A", "A"] : List String).length ≤ 10 ∧
    (∃ s', execute_create_poll
        { polls := [("p1", Poll.mk "old" "oldq" [("X", 5)])], ballots := [] }
        "c" "p1" "q" ["A", "A"] = .ok s' ∧
      query_poll s' "p1" = some (Poll.mk "c" "q" [("A", 0), ("A", 0)]) ∧
      (∀ other, other ≠ "p1" → query_poll s' other =
        query_poll { polls := [("p1", Poll.mk "old" "oldq" [("X", 5)])], ballots := [] } other) ∧
      s'.ballots =
        ({ polls := [("p1", Poll.mk "old" "oldq" [("X", 5)])], ballots := [] } : State).ballots) :=
  ⟨by decide, C6_create_poll_overwrites _ "c" "p1" "q" ["A", "A"] (by decide)⟩

/-- Claim C7: a cast_vote naming a poll id with no stored Poll fails
with PollNotFound and the transaction leaves the state unchanged. -/
theorem C7_poll_not_found
    {s : State} {pid : String} (sn c : String)
    (hpg : pollsGet pid s.polls = none) :
    execute_vote s sn pid c = .error (.contract .pollNotFound) ∧
    applyOp s (.vote sn pid c) = s := by
  have herr := execute_vote_eq_notFound sn c hpg
  exact ⟨herr, by simp [applyOp, runOp, herr]⟩

/-- Witness for C7: voting on empty storage fails with PollNotFound. -/
theorem C7_witness :
    execute_vote emptyState "v" "p" "A" = .error (.contract .pollNotFound) ∧
    applyOp emptyState (.vote "v" "p" "A") = emptyState :=
  C7_poll_not_found "v" "A" rfl

/-- Claim C8: list_polls returns the full stored Poll sequence in
ascending key order for every reachable storage snapshot; on empty
storage it returns the empty sequence, and after creating two polls
(here in descending key order) it returns both, keyed ascending. -/
theorem C8_list_polls_sorted :
    (∀ ops : List Op, keysSorted (reach ops).polls ∧
      query_all_polls (reach ops) = (reach ops).polls.map Prod.snd) ∧
    query_all_polls emptyState = [] ∧
    query_all_polls (reach [.createPoll "c" "b" "qb" ["X"],
        .createPoll "c" "a" "qa" ["Y"]]) =
      [Poll.mk "c" "qa" [("Y", 0)], Poll.mk "c" "qb" [("X", 0)]] :=
  ⟨fun ops => ⟨keysSorted_reach ops, rfl⟩, rfl, rfl⟩

/-- Claim C9: for a validated voter principal, get_vote returns the
stored Ballot when one exists for the (voter, poll) pair and absence
(none, not a failure) when the voter never voted on the poll. -/
theorem C9_get_vote_absence
    (ops : List Op) (voter pid : String) :
    ((∀ e ∈ (reach ops).ballots, e.1 ≠ (voter, pid)) →
      query_vote (reach ops) voter pid = none) ∧
    (∀ b : Ballot, ((voter, pid), b) ∈ (reach ops).ballots →
      query_vote (reach ops) voter pid = some b) := by
  constructor
  · intro h
    unfold query_vote
    apply ballotsGet_eq_none_of_not_mem
    intro hc
    obtain ⟨e, he, hekey⟩ := List.mem_map.mp hc
    exact h e he hekey
  · intro b hb
    unfold query_vote
    exact ballotsGet_of_mem (ballotKeysNodup_reach ops) hb

/-- Witness for C9: v2 never voted on p and gets absence; v1 holds a
stored Ballot for A and gets it back. -/
theorem C9_witness :
    query_vote (reach [.createPoll "c" "p" "q" ["A"], .vote "v1" "p" "A"])
      "v2" "p" = none ∧
    query_vote (reach [.createPoll "c" "p" "q" ["A"], .vote "v1" "p" "A"])
      "v1" "p" = some { option := "A" } :=
  ⟨(C9_get_vote_absence [.createPoll "c" "p" "q" ["A"], .vote "v1" "p" "A"]
      "v2" "p").1 (by decide),
   (C9_get_vote_absence [.createPoll "c" "p" "q" ["A"], .vote "v1" "p" "A"]
      "v1" "p").2 { option := "A" } (by decide)⟩

/-- Claim C10: cast_vote can abort from reachable states.  After a poll
overwrite, a stale Ballot for an option absent from the new options
list makes the position unwrap abort (unwrapNone), and a stale Ballot
for a still-present option whose tally was reset to 0 makes the
checked u64 decrement abort (arithCheck). -/
theorem C10_reachable_aborts :
    execute_vote (reach [.createPoll "c" "p" "q" ["A", "B"], .vote "v" "p" "A",
        .createPoll "c" "p" "q" ["C"]]) "v" "p" "C" = .error .unwrapNone ∧
    execute_vote (reach [.createPoll "c" "p" "q" ["A"], .vote "v" "p" "A",
        .createPoll "c" "p" "q" ["A"]]) "v" "p" "A" = .error .arithCheck :=
  ⟨rfl, rfl⟩

end CwPolls
